import Mathlib

/-
Verification of the tree-rendering program (src/main.rs) against its
natural-language specification.

The program walks a directory tree (walkdir, follow_links(false)) with a
filter_entry hidden-name predicate, optionally filters by depth, collects
the surviving entries into a vector, and renders one line per entry:
a per-depth prefix built from a `last_dirs : Vec<bool>` state, a
lookahead-of-one `is_last` test, a styled file name, and a metadata suffix.

The shallow embedding below translates each piece of that source into a
Lean definition; theorems about those definitions settle the claims.
-/

namespace TreeSpec

/-- A file name as the OS reports it: either valid UTF-8 or raw bytes
(models Rust `OsStr`, whose `to_str` yields `None` for the raw case). -/
inductive OsName where
  | utf8 (s : String)
  | raw (bytes : List Nat)
deriving DecidableEq

/-- Embeds `is_hidden` (src/main.rs:157-163):
`entry.file_name().to_str().map(|s| s.starts_with('.')).unwrap_or(false)`.
`starts_with('.')` on a UTF-8 string tests whether the first character is
a dot, embedded here as a test on the head of the character list. -/
def isHidden : OsName → Bool
  | OsName.utf8 s => s.data.head? == some '.'
  | OsName.raw _ => false

/-- File kinds the renderer distinguishes: `is_dir()`, `is_symlink()`, else. -/
inductive FileKind where
  | dir
  | symlink
  | other
deriving DecidableEq

/-- Metadata as used by the render loop: `metadata.len()` and the
already-formatted `%Y-%m-%d %H:%M:%S` modification time.  `modified = none`
models a `metadata.modified()` call that returns `Err`. -/
structure Meta where
  size : Nat
  modified : Option String
deriving DecidableEq

/-- One visited filesystem node, as yielded by the walker.  `path` lists the
name components from the root down to the entry (root name first); `meta =
none` models an `entry.metadata()` call that returns `Err`; `linkTarget =
none` for a symlink models a failing `read_link`. -/
structure Entry where
  path : List OsName
  name : OsName
  depth : Nat
  kind : FileKind
  meta : Option Meta
  linkTarget : Option String
deriving DecidableEq

instance : Inhabited Entry :=
  ⟨⟨[], OsName.utf8 "", 0, FileKind.other, none, none⟩⟩

/-- A filesystem subtree.  Children of non-directories are not produced by a
real filesystem; the walker model simply never needs that assumption. -/
inductive FSNode where
  | mk (name : OsName) (kind : FileKind) (meta : Option Meta)
      (linkTarget : Option String) (children : List FSNode)

/-- Embeds the `filter_entry` closure (src/main.rs:51-59): depth 0 is always
included; any other entry passes iff it is not hidden or hidden files are
shown. -/
def includeEntry (showHidden : Bool) (depth : Nat) (name : OsName) : Bool :=
  if depth == 0 then true else !isHidden name || showHidden

/-- Depth-first pre-order walk of a forest whose roots sit at depth `d` and
below path `p`, with walkdir `filter_entry` semantics: a node that fails
`includeEntry` is skipped together with its whole subtree (walkdir does not
descend into filtered-out directories). -/
def walkForest (sh : Bool) (p : List OsName) (d : Nat) : List FSNode → List Entry
  | [] => []
  | FSNode.mk n k m lt cs :: ts =>
    (if includeEntry sh d n then
      Entry.mk (p ++ [n]) n d k m lt :: walkForest sh (p ++ [n]) (d + 1) cs
    else []) ++ walkForest sh p d ts

/-- The walker output for a root node: the configured `WalkDir` iterator
after `filter_entry`, on an error-free filesystem. -/
def walkTree (sh : Bool) (t : FSNode) : List Entry :=
  walkForest sh [] 0 [t]

/-- Errors yielded by the walkdir iterator (root unreadable, permission
denied on a subdirectory, entry vanished mid-walk). -/
structure WalkError where
  msg : String
deriving DecidableEq

/-- Embeds `.filter_map(|e| e.ok())` (src/main.rs:60): walker errors are
dropped silently, only `Ok` entries survive. -/
def filterOkEntries (xs : List (Except WalkError Entry)) : List Entry :=
  xs.filterMap Except.toOption

/-- Embeds the depth filter (src/main.rs:63-69): with `--level m` only
entries of depth `≤ m` are collected; without it the walker output is
collected unchanged. -/
def applyLevel (level : Option Nat) (es : List Entry) : List Entry :=
  match level with
  | some m => es.filter (fun e => e.depth ≤ m)
  | none => es

/-- Embeds the `is_last` computation (src/main.rs:76-84): true when `i` is
the final index, or when the next entry's depth is strictly less. -/
def isLastLocal (es : List Entry) (i : Nat) : Bool :=
  if es.length ≤ i + 1 then true
  else decide ((es.getD (i + 1) default).depth < (es.getD i default).depth)

/-- The spec's global formulation of `isLast` (spec §8): true iff every
entry that follows position `i` has depth strictly less than the depth at
`i`, or `i` is the final position. -/
def isLastGlobal (es : List Entry) (i : Nat) : Bool :=
  if es.length ≤ i + 1 then true
  else (List.range es.length).all fun j =>
    decide (j ≤ i) || decide ((es.getD j default).depth < (es.getD i default).depth)

/-- Embeds the `last_dirs` update (src/main.rs:87-91): push when `depth`
is at least the current length, overwrite in place otherwise. -/
def updateLast (lastDirs : List Bool) (depth : Nat) (isLast : Bool) : List Bool :=
  if lastDirs.length ≤ depth then lastDirs ++ [isLast] else lastDirs.set depth isLast

/-- The `last_dirs` state after the first `k` entries of `es` have been
processed by the render loop. -/
def stateAt (es : List Entry) : Nat → List Bool
  | 0 => []
  | k + 1 => updateLast (stateAt es k) (es.getD k default).depth (isLastLocal es k)

/-- Embeds the branch connector choice (src/main.rs:105-109). -/
def connector (isLast : Bool) : String :=
  if isLast then "└── " else "├── "

/-- Embeds one four-character block of the loop body (src/main.rs:98-102),
including the `.get(d).cloned().unwrap_or(false)` out-of-range default. -/
def blockFor (lastDirs : List Bool) (a : Nat) : String :=
  if lastDirs.getD a false then "    " else "│   "

/-- Embeds the prefix construction (src/main.rs:94-110): for positive depth,
the loop `for d in 1..depth` pushes one block per ancestor index, then the
connector is pushed; depth 0 leaves the prefix empty. -/
def pfxFor (lastDirs : List Bool) (depth : Nat) (isLast : Bool) : String :=
  if 0 < depth then
    (List.range' 1 (depth - 1)).foldl (fun acc a => acc ++ blockFor lastDirs a) ""
      ++ connector isLast
  else ""

/-- Terminal colors the program uses. -/
inductive Color where
  | blue
  | green
deriving DecidableEq

/-- A `colored::ColoredString`: the text plus the requested styles. -/
structure Styled where
  text : String
  bold : Bool
  color : Option Color
deriving DecidableEq

/-- Embeds the styling selection (src/main.rs:113-127).  The two symlink
branches are kept separate exactly as in the source, where both arms of the
`no_color` test produce `file_name.normal().green()`. -/
def styledNameOf (noColor : Bool) (k : FileKind) (txt : String) : Styled :=
  if k == FileKind.dir then
    if noColor then ⟨txt, true, none⟩ else ⟨txt, true, some Color.blue⟩
  else if k == FileKind.symlink then
    if noColor then ⟨txt, false, some Color.green⟩ else ⟨txt, false, some Color.green⟩
  else ⟨txt, false, none⟩

/-- SGR code for a foreground color, as the `colored` crate emits it. -/
def sgrCode : Option Color → String
  | some Color.blue => "34"
  | some Color.green => "32"
  | none => ""

/-- Display of a `ColoredString`: plain text when no style is set, otherwise
the text wrapped in the SGR escape sequence and a reset (models the
`colored` crate's `Display` implementation). -/
def Styled.render (s : Styled) : String :=
  if !s.bold && s.color == none then s.text
  else
    "\x1b[" ++ (if s.bold then "1" else "")
      ++ (if s.bold && s.color.isSome then ";" else "")
      ++ sgrCode s.color ++ "m" ++ s.text ++ "\x1b[0m"

/-- Embeds `to_string_lossy` for display purposes; the precise lossy
replacement of invalid byte sequences is abstracted to the replacement
character, which no claim depends on. -/
def osDisplay : OsName → String
  | OsName.utf8 s => s
  | OsName.raw _ => "�"

/-- Embeds the display-name construction (src/main.rs:129-138): symlinks get
` -> target`, or ` -> [unresolved]` when `read_link` fails. -/
def displayName (noColor : Bool) (e : Entry) : String :=
  let sn := (styledNameOf noColor e.kind (osDisplay e.name)).render
  if e.kind == FileKind.symlink then
    match e.linkTarget with
    | some t => sn ++ " -> " ++ t
    | none => sn ++ " -> [unresolved]"
  else sn

/-- One iteration of the render loop (src/main.rs:71-151) for index `i`:
compute `is_last`, update the state (`stateAt es (i+1)` is exactly the
updated `last_dirs`), build the prefix and display name, then read the
metadata.  `none` models the `unwrap()` panic on a failed `metadata()` or
`modified()` call: no line is produced and the run aborts. -/
def renderLineAt (noColor : Bool) (es : List Entry) (i : Nat) : Option String :=
  let e := es.getD i default
  let il := isLastLocal es i
  let pre := pfxFor (stateAt es (i + 1)) e.depth il
  match e.meta with
  | none => none
  | some m =>
    match m.modified with
    | none => none
    | some ts =>
      some (pre ++ displayName noColor e ++ " (" ++ toString m.size
        ++ " bytes, modified: " ++ ts ++ ")")

/-- Folding step of the render loop: while no panic has occurred, each index
appends its line; a panic (`none`) drops the flag and freezes the output,
modelling process abort mid-loop (lines already written stay written). -/
def renderStep (noColor : Bool) (es : List Entry) (acc : List String × Bool)
    (i : Nat) : List String × Bool :=
  if acc.2 then
    match renderLineAt noColor es i with
    | some line => (acc.1 ++ [line], true)
    | none => (acc.1, false)
  else acc

/-- The whole render pass over a collected entry list: the produced lines
and whether the run completed without a panic. -/
def renderRun (noColor : Bool) (es : List Entry) : List String × Bool :=
  (List.range es.length).foldl (renderStep noColor es) ([], true)

/-- The full program on a given walker output stream (src/main.rs:32-153):
drop walker errors, apply the optional depth filter, render. -/
def mainRun (noColor : Bool) (level : Option Nat)
    (walkerOut : List (Except WalkError Entry)) : List String × Bool :=
  renderRun noColor (applyLevel level (filterOkEntries walkerOut))

/-- The collection phase on an error-free tree: walk, then the optional
depth filter (src/main.rs:63-69). -/
def collectEntries (sh : Bool) (level : Option Nat) (t : FSNode) : List Entry :=
  applyLevel level (walkTree sh t)

/-- Step condition of a pre-order depth sequence: the depth never increases
by more than one from an entry to the next. -/
def stepOk : List Nat → Bool
  | [] => true
  | [_] => true
  | a :: b :: rest => decide (b ≤ a + 1) && stepOk (b :: rest)

/-- Characterisation of depth sequences produced by a depth-first pre-order
walk of a single rooted tree: the first entry is the root at depth 0, every
later entry is strictly deeper than the root, and the depth grows by at
most one per step. -/
def preOrderDepths (ds : List Nat) : Bool :=
  match ds with
  | [] => true
  | d0 :: rest => (d0 == 0) && rest.all (fun x => decide (0 < x)) && stepOk (d0 :: rest)

/-- Written from the spec's words for C2: one block per listed ancestor
depth, in order, each four spaces or a vertical bar plus three spaces
according to the recorded flag. -/
def specBlocks (lastDirs : List Bool) : List Nat → String
  | [] => ""
  | a :: rest => blockFor lastDirs a ++ specBlocks lastDirs rest

/-- Written from the spec's words for C8: the tree with every node deeper
than the budget removed — the nodes of a forest sitting at the depth limit
keep no children, deeper-budget nodes keep pruned children. -/
def pruneForest : Nat → List FSNode → List FSNode
  | _, [] => []
  | 0, FSNode.mk n k m lt _ :: ts => FSNode.mk n k m lt [] :: pruneForest 0 ts
  | b + 1, FSNode.mk n k m lt cs :: ts =>
    FSNode.mk n k m lt (pruneForest b cs) :: pruneForest (b + 1) ts

/-- Single-tree version of `pruneForest`: keep the root, prune everything
deeper than depth `m`. -/
def pruneNode (m : Nat) : FSNode → FSNode
  | FSNode.mk n k mm lt cs =>
    FSNode.mk n k mm lt (match m with | 0 => [] | b + 1 => pruneForest b cs)

/-- The entry the walker yields for the root node itself. -/
def rootEntryOf : FSNode → Entry
  | FSNode.mk n k m lt _ => Entry.mk [n] n 0 k m lt

/-- Fixture helper: a directory node with fixed metadata. -/
def mkDir (n : String) (cs : List FSNode) : FSNode :=
  FSNode.mk (OsName.utf8 n) FileKind.dir (some ⟨0, some "2024-01-01 00:00:00"⟩) none cs

/-- Fixture helper: a plain file node with fixed metadata. -/
def mkFile (n : String) : FSNode :=
  FSNode.mk (OsName.utf8 n) FileKind.other (some ⟨3, some "2024-01-01 00:00:00"⟩) none []

/-- Fixture entry with a given depth and neutral remaining fields. -/
def eD (d : Nat) : Entry :=
  ⟨[], OsName.utf8 "", d, FileKind.other, some ⟨0, some "t"⟩, none⟩

/-- Fixture tree for C1: `r/{a/{x}, b/{y}}`, whose pre-order walk has depth
sequence `[0, 1, 2, 1, 2]`. -/
def cT : FSNode :=
  mkDir "r" [mkDir "a" [mkFile "x"], mkDir "b" [mkFile "y"]]

/-- Fixture tree for C7/C9: a hidden directory with a non-hidden child,
next to a visible file. -/
def tH : FSNode :=
  mkDir "root" [mkDir ".h" [mkFile "inner"], mkFile "v.txt"]

/-- Fixture tree for C10: a hidden directory containing a node whose name
is not valid UTF-8. -/
def tC10 : FSNode :=
  mkDir "r" [FSNode.mk (OsName.utf8 ".h") FileKind.dir (some ⟨0, some "t"⟩) none
    [FSNode.mk (OsName.raw [255]) FileKind.other (some ⟨0, some "t"⟩) none []]]

/-- Fixture tree for C8: `r/{a/{x}}`. -/
def tC8 : FSNode :=
  mkDir "r" [mkDir "a" [mkFile "x"]]

/-- Fixture entry for C4: depth-0 file with readable metadata. -/
def goodEntry : Entry :=
  ⟨[OsName.utf8 "a"], OsName.utf8 "a", 0, FileKind.other,
    some ⟨3, some "2024-01-02 03:04:05"⟩, none⟩

/-- Fixture entry for C4: a valid walker entry whose `metadata()` call
fails at render time. -/
def badMetaEntry : Entry :=
  ⟨[OsName.utf8 "b"], OsName.utf8 "b", 0, FileKind.other, none, none⟩

/-- The walker entry for the hidden directory of `tH`. -/
def eHidden : Entry :=
  ⟨[OsName.utf8 "root", OsName.utf8 ".h"], OsName.utf8 ".h", 1, FileKind.dir,
    some ⟨0, some "2024-01-01 00:00:00"⟩, none⟩

/-- The walker entry for the visible file of `tH`. -/
def eVisible : Entry :=
  ⟨[OsName.utf8 "root", OsName.utf8 "v.txt"], OsName.utf8 "v.txt", 1, FileKind.other,
    some ⟨3, some "2024-01-01 00:00:00"⟩, none⟩

/-- The walker entry for the depth-1 directory of `tC8`. -/
def eA : Entry :=
  ⟨[OsName.utf8 "r", OsName.utf8 "a"], OsName.utf8 "a", 1, FileKind.dir,
    some ⟨0, some "2024-01-01 00:00:00"⟩, none⟩

/-- C1 counterexample: on the pre-order walk of `cT = r/{a/{x}, b/{y}}`,
whose depth sequence `[0,1,2,1,2]` satisfies every pre-order walk
constraint, the local lookahead rule declares the entry at index 2 (`x`)
last, while the spec's global formulation does not — the entry at index 4
(`y`) follows it at an equal depth.  The two formulations disagree, so the
claimed equivalence is false. -/
theorem C1_counterexample :
    preOrderDepths ((walkTree true cT).map Entry.depth) = true ∧
    (walkTree true cT).map Entry.depth = [0, 1, 2, 1, 2] ∧
    isLastLocal (walkTree true cT) 2 = true ∧
    isLastGlobal (walkTree true cT) 2 = false := by
  have h : walkTree true cT =
      [⟨[OsName.utf8 "r"], OsName.utf8 "r", 0, FileKind.dir,
          some ⟨0, some "2024-01-01 00:00:00"⟩, none⟩,
        ⟨[OsName.utf8 "r", OsName.utf8 "a"], OsName.utf8 "a", 1, FileKind.dir,
          some ⟨0, some "2024-01-01 00:00:00"⟩, none⟩,
        ⟨[OsName.utf8 "r", OsName.utf8 "a", OsName.utf8 "x"], OsName.utf8 "x", 2,
          FileKind.other, some ⟨3, some "2024-01-01 00:00:00"⟩, none⟩,
        ⟨[OsName.utf8 "r", OsName.utf8 "b"], OsName.utf8 "b", 1, FileKind.dir,
          some ⟨0, some "2024-01-01 00:00:00"⟩, none⟩,
        ⟨[OsName.utf8 "r", OsName.utf8 "b", OsName.utf8 "y"], OsName.utf8 "y", 2,
          FileKind.other, some ⟨3, some "2024-01-01 00:00:00"⟩, none⟩] := by
    simp [walkTree, walkForest, includeEntry, isHidden, cT, mkDir, mkFile]
  rw [h]
  decide

/-- C1 amended: the global formulation implies the local lookahead rule —
whenever every entry after position `i` is strictly shallower (or `i` is
final), the renderer's local rule also reports `isLast = true`.  The
converse direction of the claimed equivalence is what the counterexample
refutes. -/
theorem C1_global_implies_local (es : List Entry) (i : Nat)
    (h : isLastGlobal es i = true) : isLastLocal es i = true := by
  unfold isLastGlobal at h
  unfold isLastLocal
  by_cases hl : es.length ≤ i + 1
  · simp [hl]
  · simp only [if_neg hl] at h ⊢
    simp only [List.all_eq_true, List.mem_range, Bool.or_eq_true,
      decide_eq_true_eq] at h
    have hi : i + 1 < es.length := Nat.lt_of_not_le hl
    rcases h (i + 1) hi with h1 | h2
    · omega
    · exact decide_eq_true h2

/-- C1 witness: the hypotheses of `C1_global_implies_local` hold at a
concrete input. -/
theorem C1_witness :
    isLastGlobal [eD 0, eD 1] 1 = true ∧ isLastLocal [eD 0, eD 1] 1 = true :=
  ⟨by decide, C1_global_implies_local [eD 0, eD 1] 1 (by decide)⟩

/-- The render loop's string building (a fold pushing one block at a time)
equals the block-by-block concatenation written from the spec's words. -/
theorem foldl_blockFor (lastDirs : List Bool) (l : List Nat) (init : String) :
    l.foldl (fun acc a => acc ++ blockFor lastDirs a) init
      = init ++ specBlocks lastDirs l := by
  induction l generalizing init with
  | nil => simp [specBlocks, String.append_empty]
  | cons x xs ih => simp [List.foldl_cons, specBlocks, ih, String.append_assoc]

/-- C2: an entry at depth 0 receives no prefix and no connector; for
`0 < d` the prefix is exactly one four-character block per ancestor depth
`a` in `1..d` (four spaces when the recorded flag at `a` is true, a
vertical bar plus three spaces when it is false) followed by the corner
connector when the entry is last and the tee connector otherwise. -/
theorem C2_prefix_blocks (lastDirs : List Bool) (d : Nat) (il : Bool) :
    pfxFor lastDirs 0 il = "" ∧
    (0 < d → pfxFor lastDirs d il
      = specBlocks lastDirs (List.range' 1 (d - 1)) ++ connector il) ∧
    (List.range' 1 (d - 1)).length = d - 1 ∧
    (∀ a, (blockFor lastDirs a).length = 4) := by
  refine ⟨rfl, ?_, by simp, ?_⟩
  · intro hd
    unfold pfxFor
    rw [if_pos hd, foldl_blockFor, String.empty_append]
  · intro a
    unfold blockFor
    split <;> rfl

/-- C2 witness: the depth hypothesis of `C2_prefix_blocks` holds at a
concrete input, evaluating the prefix of a depth-3 last entry whose
ancestors are "still open" at depth 1 and closed at depth 2. -/
theorem C2_witness :
    (0 < 3) ∧ pfxFor [false, false, true] 3 true
      = specBlocks [false, false, true] (List.range' 1 2) ++ connector true :=
  ⟨by decide, (C2_prefix_blocks [false, false, true] 3 true).2.1 (by decide)⟩

/-- C3 counterexample: for the entry sequence with depths `[0, 2]` — a
depth jump of two, which the claim explicitly covers — the second entry has
`isLast = true` and depth 2, but the single mutation is a push that lands
at index 1, so after the mutation the state has no flag at index 2 at all:
the flag at index `d` does not equal the entry's `isLast` value. -/
theorem C3_counterexample :
    isLastLocal [eD 0, eD 2] 1 = true ∧
    stateAt [eD 0, eD 2] 2 = [false, true] ∧
    (stateAt [eD 0, eD 2] 2)[2]? = none := by
  decide

/-- C3 amended: each entry mutates `lastAtDepth` exactly once, at index
`min d length` — an in-place overwrite at `d` when `d < length`, an append
at the old length otherwise; every other index is untouched.  Whenever
`d ≤ length` (which a walker-produced sequence, whose depth steps grow by
at most one, always guarantees) the flag at index `d` equals `isLast`
after the mutation; when `d` exceeds the length the appended flag sits at
the old length, not at index `d`. -/
theorem C3_update_characterisation (s : List Bool) (d : Nat) (b : Bool) :
    (updateLast s d b).length = (if d < s.length then s.length else s.length + 1) ∧
    (updateLast s d b)[min d s.length]? = some b ∧
    (∀ i, i ≠ min d s.length → (updateLast s d b)[i]? = s[i]?) ∧
    (d ≤ s.length → (updateLast s d b)[d]? = some b) := by
  unfold updateLast
  by_cases h : s.length ≤ d
  · rw [if_pos h]
    have hd : ¬d < s.length := by omega
    have hmin : min d s.length = s.length := by omega
    rw [hmin]
    refine ⟨by simp [if_neg hd], by simp, ?_, ?_⟩
    · intro i hi
      rcases Nat.lt_or_ge i s.length with h1 | h1
      · rw [List.getElem?_append_left h1]
      · rw [List.getElem?_eq_none (by simp; omega), List.getElem?_eq_none (by omega)]
    · intro hds
      have hde : d = s.length := by omega
      rw [hde]
      simp
  · rw [if_neg h]
    have hd : d < s.length := by omega
    have hmin : min d s.length = d := by omega
    rw [hmin]
    refine ⟨by simp [if_pos hd], ?_, ?_, fun _ => ?_⟩
    · simp [List.getElem?_set_self', List.getElem?_eq_getElem, hd]
    · intro i hi
      rw [List.getElem?_set_ne (by omega)]
    · simp [List.getElem?_set_self', List.getElem?_eq_getElem, hd]

/-- C3 witness: the hypotheses of `C3_update_characterisation` hold at a
concrete input — overwriting index 0 of a two-flag state leaves index 1
untouched and stores the new flag at index 0. -/
theorem C3_witness :
    (updateLast [true, true] 0 false)[1]? = some true ∧
    (updateLast [true, true] 0 false)[0]? = some false :=
  ⟨((C3_update_characterisation [true, true] 0 false).2.2.1 1 (by decide)).trans
      (by decide),
    (C3_update_characterisation [true, true] 0 false).2.2.2 (by decide)⟩

/-- C4, evaluating the code at the failing input: a walker error is indeed
dropped silently and the run completes (first conjunct), but an entry whose
`metadata()` read fails at render time makes the run abort via `unwrap()` —
no line is emitted for it, the following valid entry is never processed,
and the run does not complete (second conjunct).  The claim that every
per-entry metadata error is skipped while the run continues is therefore
wrong about the code; the code contradicts the documented silent-skip
policy. -/
theorem C4_metadata_error_aborts :
    mainRun false none [Except.error ⟨"permission denied"⟩, Except.ok goodEntry]
      = (["a (3 bytes, modified: 2024-01-02 03:04:05)"], true) ∧
    mainRun false none [Except.ok badMetaEntry, Except.ok goodEntry]
      = ([], false) := by
  decide

/-- C5, evaluating the code at the failing input: with the disable-styling
flag set, a symlink name is still rendered green — the two arms of the
`no_color` test in the source are identical — and a directory name is still
rendered bold, so emphasis and color markers do appear in the flagged
output, contrary to the claim and to the flag's own documentation
("Disable colors").  The last conjunct shows the green escape sequence
reaching the emitted line. -/
theorem C5_styling_leak :
    (styledNameOf true FileKind.symlink "ln").color = some Color.green ∧
    styledNameOf true FileKind.symlink "ln" = styledNameOf false FileKind.symlink "ln" ∧
    (styledNameOf true FileKind.dir "d").bold = true ∧
    displayName true ⟨[OsName.utf8 "ln"], OsName.utf8 "ln", 1, FileKind.symlink,
        some ⟨0, some "t"⟩, some "target"⟩
      = "\x1b[32mln\x1b[0m -> target" := by
  decide

/-- C6 counterexample: when the root path is invalid the walker stream is a
single error item; the program filters it out, renders nothing, and
finishes with `Ok(())` — a successful exit with empty output, not the
claimed surfaced failure. -/
theorem C6_counterexample :
    mainRun false none [Except.error ⟨"root path does not exist"⟩] = ([], true) := by
  decide

/-- C6 amended: for every flag configuration, an invalid root path (a
walker stream holding only an error item) yields a run that completes
successfully with zero entry lines; the failure is never surfaced to the
caller. -/
theorem C6_invalid_root_success (nc : Bool) (lvl : Option Nat) (msg : String) :
    mainRun nc lvl [Except.error ⟨msg⟩] = ([], true) := by
  cases lvl <;>
    simp [mainRun, filterOkEntries, applyLevel, renderRun, List.filterMap_cons,
      Except.toOption]

/-- Every entry the walk yields passed the filter predicate at its own
depth and name, and its depth is at least the start depth of the forest it
came from. -/
theorem mem_walkForest_include (sh : Bool) (p : List OsName) (d : Nat)
    (ts : List FSNode) :
    ∀ e ∈ walkForest sh p d ts,
      includeEntry sh e.depth e.name = true ∧ d ≤ e.depth := by
  induction p, d, ts using walkForest.induct sh with
  | case1 p d => simp [walkForest]
  | case2 p d n k m lt cs ts ih1 ih2 =>
    intro e he
    simp only [walkForest] at he
    rcases List.mem_append.mp he with h1 | h2
    · by_cases hinc : includeEntry sh d n = true
      · rw [if_pos hinc] at h1
        rcases List.mem_cons.mp h1 with rfl | h3
        · exact ⟨hinc, Nat.le_refl _⟩
        · obtain ⟨hi, hdep⟩ := ih1 e h3
          exact ⟨hi, by omega⟩
      · rw [if_neg hinc] at h1
        simp at h1
    · exact ih2 e h2

/-- Every entry the walk yields has the forest's base path as a proper
path-prefix: the walk only appends components below `p`. -/
theorem walkForest_path_below (sh : Bool) (p : List OsName) (d : Nat)
    (ts : List FSNode) :
    ∀ e ∈ walkForest sh p d ts, ∃ suf, e.path = p ++ suf := by
  induction p, d, ts using walkForest.induct sh with
  | case1 p d => simp [walkForest]
  | case2 p d n k m lt cs ts ih1 ih2 =>
    intro e he
    simp only [walkForest] at he
    rcases List.mem_append.mp he with h1 | h2
    · by_cases hinc : includeEntry sh d n = true
      · rw [if_pos hinc] at h1
        rcases List.mem_cons.mp h1 with rfl | h3
        · exact ⟨[n], rfl⟩
        · obtain ⟨suf, hs⟩ := ih1 e h3
          exact ⟨n :: suf, by simp [hs]⟩
      · rw [if_neg hinc] at h1
        simp at h1
    · exact ih2 e h2

/-- With hidden entries excluded, a walk started strictly below the root
yields only entries all of whose path components below the base path are
non-hidden: a hidden directory never contributes itself nor any
descendant. -/
theorem walkForest_no_hidden (p : List OsName) (d : Nat) (ts : List FSNode) :
    ∀ e ∈ walkForest false p d ts, 1 ≤ d →
      ∀ x ∈ e.path.drop p.length, isHidden x = false := by
  induction p, d, ts using walkForest.induct false with
  | case1 p d => simp [walkForest]
  | case2 p d n k m lt cs ts ih1 ih2 =>
    intro e he hd x hx
    simp only [walkForest] at he
    rcases List.mem_append.mp he with h1 | h2
    · by_cases hinc : includeEntry false d n = true
      · have hn : isHidden n = false := by
          unfold includeEntry at hinc
          rw [if_neg (by simp; omega)] at hinc
          simpa using hinc
        rw [if_pos hinc] at h1
        rcases List.mem_cons.mp h1 with rfl | h3
        · have hpath : (Entry.mk (p ++ [n]) n d k m lt).path.drop p.length = [n] :=
            List.drop_left p [n]
          rw [hpath] at hx
          rcases List.mem_singleton.mp hx with rfl
          exact hn
        · obtain ⟨suf, hs⟩ := walkForest_path_below false (p ++ [n]) (d + 1) cs e h3
          have h4 : e.path.drop (p ++ [n]).length = suf := by
            rw [hs, List.drop_left]
          have h5 : e.path.drop p.length = n :: suf := by
            rw [hs, List.append_assoc, List.drop_left, List.singleton_append]
          rw [h5] at hx
          rcases List.mem_cons.mp hx with rfl | hx2
          · exact hn
          · refine ih1 e h3 (by omega) x ?_
            rw [h4]
            exact hx2
      · rw [if_neg hinc] at h1
        simp at h1
    · exact ih2 e h2 hd x hx

/-- C7: the root entry is the first entry of every walk, whatever its name
and whatever the flag; and any deeper entry with a hidden name can only
appear in the output when the include-hidden flag is set. -/
theorem C7_hidden_policy (sh : Bool) (t : FSNode) :
    (walkTree sh t).head? = some (rootEntryOf t) ∧
    ∀ e ∈ walkTree sh t, 0 < e.depth → isHidden e.name = true → sh = true := by
  constructor
  · cases t with
    | mk n k m lt cs =>
      simp [walkTree, walkForest, includeEntry, rootEntryOf]
  · intro e he hdep hhid
    obtain ⟨hinc, _⟩ := mem_walkForest_include sh [] 0 [t] e he
    unfold includeEntry at hinc
    rw [if_neg (by simp; omega)] at hinc
    simpa [hhid] using hinc

/-- C7 witness: the hypotheses of `C7_hidden_policy` hold at a concrete
input — with the flag set, the hidden directory of `tH` is in the output
at depth 1. -/
theorem C7_witness :
    eHidden ∈ walkTree true tH ∧ 0 < eHidden.depth ∧
      isHidden eHidden.name = true ∧ true = true := by
  have hm : eHidden ∈ walkTree true tH := by
    simp [walkTree, walkForest, includeEntry, isHidden, tH, mkDir, mkFile, eHidden]
  exact ⟨hm, by decide, by decide,
    (C7_hidden_policy true tH).2 eHidden hm (by decide) (by decide)⟩

/-- C9: with hidden entries excluded, every entry of the output has only
non-hidden path components below the root — so no descendant of a hidden
directory ever appears, even one whose own name is not hidden: rejecting a
directory in `filter_entry` prunes its entire subtree. -/
theorem C9_hidden_subtree_pruned (t : FSNode) (e : Entry)
    (he : e ∈ walkTree false t) :
    ∀ x ∈ e.path.drop 1, isHidden x = false := by
  intro x hx
  cases t with
  | mk n k m lt cs =>
    unfold walkTree at he
    simp only [walkForest] at he
    rw [if_pos (by simp [includeEntry])] at he
    simp only [List.append_nil] at he
    rcases List.mem_cons.mp he with rfl | h2
    · simp at hx
    · have hp : ([] : List OsName) ++ [n] = [n] := rfl
      refine walkForest_no_hidden [n] 1 cs e ?_ (by omega) x ?_
      · rw [hp] at h2
        exact h2
      · simpa using hx

/-- C9 witness: the hypotheses of `C9_hidden_subtree_pruned` hold at a
concrete input — the visible file of `tH` is in the flag-unset output and
its one below-root path component is not hidden. -/
theorem C9_witness :
    eVisible ∈ walkTree false tH ∧ OsName.utf8 "v.txt" ∈ eVisible.path.drop 1 ∧
      isHidden (OsName.utf8 "v.txt") = false := by
  have hm : eVisible ∈ walkTree false tH := by
    simp [walkTree, walkForest, includeEntry, isHidden, tH, mkDir, mkFile, eVisible]
  exact ⟨hm, by decide, C9_hidden_subtree_pruned tH eVisible hm _ (by decide)⟩

/-- C10 counterexample: `tC10` contains a node named by the raw bytes
`[255]` (not valid UTF-8) below the hidden directory `.h`.  With the
include-hidden flag set the node is walked (second conjunct), but with the
flag unset the output holds the root only — the non-UTF-8 entry is *not*
included, because its hidden parent's subtree is pruned.  "Always included
in the output regardless of the flag" is therefore false. -/
theorem C10_counterexample :
    (walkTree false tC10).map Entry.name = [OsName.utf8 "r"] ∧
    (walkTree true tC10).map Entry.name
      = [OsName.utf8 "r", OsName.utf8 ".h", OsName.raw [255]] := by
  constructor <;> simp [walkTree, walkForest, includeEntry, isHidden, tC10, mkDir]

/-- C10 amended: a name that is not valid UTF-8 is never classified as
hidden, so the `filter_entry` predicate accepts such an entry at every
depth and for either value of the flag; the entry itself is never excluded
by the hidden filter (though it can still disappear with the pruned
subtree of a hidden ancestor). -/
theorem C10_nonutf8_not_hidden (bytes : List Nat) (sh : Bool) (d : Nat) :
    isHidden (OsName.raw bytes) = false ∧
      includeEntry sh d (OsName.raw bytes) = true := by
  refine ⟨rfl, ?_⟩
  unfold includeEntry
  split
  · rfl
  · simp [isHidden]

/-- Filtering a walk's output by depth budget `b` above the base depth is
the same as walking the tree with everything deeper than the budget
removed: retained entries, their order, and hence the positions feeding
the last-sibling computation are those of the pruned tree. -/
theorem walkForest_filter_depth (sh : Bool) (p : List OsName) (d : Nat)
    (ts : List FSNode) :
    ∀ b, (walkForest sh p d ts).filter (fun e => e.depth ≤ d + b)
      = walkForest sh p d (pruneForest b ts) := by
  induction p, d, ts using walkForest.induct sh with
  | case1 p d => intro b; simp [walkForest, pruneForest]
  | case2 p d n k m lt cs ts ih1 ih2 =>
    intro b
    have hcons : pruneForest b (FSNode.mk n k m lt cs :: ts)
        = FSNode.mk n k m lt (match b with | 0 => [] | b' + 1 => pruneForest b' cs)
          :: pruneForest b ts := by
      cases b <;> simp [pruneForest]
    rw [hcons]
    simp only [walkForest]
    rw [List.filter_append, ih2 b]
    by_cases hinc : includeEntry sh d n = true
    · rw [if_pos hinc, if_pos hinc,
        List.filter_cons_of_pos (by simp)]
      congr 1
      cases b with
      | zero =>
        rw [Nat.add_zero]
        have hnil : (walkForest sh (p ++ [n]) (d + 1) cs).filter
            (fun e => e.depth ≤ d) = [] := by
          rw [List.filter_eq_nil_iff]
          intro e he
          obtain ⟨_, hdep⟩ := mem_walkForest_include sh (p ++ [n]) (d + 1) cs e he
          simp
          omega
        rw [hnil]
        simp [walkForest]
      | succ b' =>
        have harith : d + (b' + 1) = (d + 1) + b' := by omega
        rw [harith, ih1 b']
    · rw [if_neg hinc, if_neg hinc, List.filter_nil]

/-- C8: with a configured maximum depth `m`, an entry is collected iff it
is collected without the limit and its depth is at most `m` (so deeper
entries are excluded and depth-`m` entries retained); moreover the
collected sequence — and therefore the whole rendered output, whose
last-sibling flags are computed from that sequence alone — is exactly that
of the tree with all deeper entries removed. -/
theorem C8_depth_limit (sh : Bool) (m : Nat) (t : FSNode) :
    (∀ e, e ∈ collectEntries sh (some m) t
      ↔ e ∈ collectEntries sh none t ∧ e.depth ≤ m) ∧
    collectEntries sh (some m) t = collectEntries sh none (pruneNode m t) ∧
    renderRun true (collectEntries sh (some m) t)
      = renderRun true (collectEntries sh none (pruneNode m t)) := by
  have hprune : collectEntries sh (some m) t
      = collectEntries sh none (pruneNode m t) := by
    have h := walkForest_filter_depth sh [] 0 [t] m
    rw [Nat.zero_add] at h
    simp only [collectEntries, applyLevel, walkTree]
    rw [h]
    congr 1
    cases t with
    | mk n k mm lt cs => cases m <;> simp [pruneForest, pruneNode]
  refine ⟨?_, hprune, by rw [hprune]⟩
  intro e
  simp [collectEntries, applyLevel, List.mem_filter]

/-- C8 witness: the hypotheses of `C8_depth_limit` hold at a concrete
input — the depth-1 directory of `tC8` is collected without a limit, has
depth at most 1, and is therefore also collected under max depth 1. -/
theorem C8_witness :
    eA ∈ collectEntries true none tC8 ∧ eA.depth ≤ 1 ∧
      eA ∈ collectEntries true (some 1) tC8 := by
  have hm : eA ∈ collectEntries true none tC8 := by
    simp [collectEntries, applyLevel, walkTree, walkForest, includeEntry,
      isHidden, tC8, mkDir, mkFile, eA]
  exact ⟨hm, by decide, ((C8_depth_limit true 1 tC8).1 eA).mpr ⟨hm, by decide⟩⟩

end TreeSpec
